import Mathlib

/-!
Verification of the `check-locales` linter (scripts/locales-key-format and
scripts/locales-format-checker): a command-line tool that checks that locale
JSON files use camelCase keys (with i18next snake_case suffix exceptions) and
kebab-case file names.

The JavaScript sources are embedded shallowly:
* pure string manipulation becomes Lean functions on `String`
  (JS `String.prototype.split`, `includes`, `endsWith` for one-character
  needles are re-implemented structurally so that they evaluate by `decide`);
* the file system is a value: a tree of entries plus a read function
  (`readdirSync`/`lstatSync` walk the tree, `existsSync`/`readFileSync`
  is the read function, which may disagree with the tree to model a file
  disappearing between listing and reading);
* `process.exitCode` / `core.setFailed` become an explicit exit-code value
  threaded through the run;
* console logging is not modelled.

The case-conversion helpers (`helpers/strings.js`) are not part of the
available sources; they are modelled from the specification, as marked on
each of their definitions.
-/

/-! ## Generic string helpers (embeddings of JS string primitives) -/

/-- Embedding of JS `s.endsWith(sfx)`. -/
def strEndsWith (s sfx : String) : Bool := sfx.toList.isSuffixOf s.toList

/-- Embedding of JS `s.includes(c)` for a one-character needle. -/
def containsChar (c : Char) (s : String) : Bool := s.toList.contains c

/-- Worker for `splitOnChar`: `cur` holds the current (reversed) chunk. -/
def splitOnCharGo (c : Char) : List Char → List Char → List String
  | [], cur => [String.mk cur.reverse]
  | x :: xs, cur =>
      if x = c then String.mk cur.reverse :: splitOnCharGo c xs []
      else splitOnCharGo c xs (x :: cur)

/-- Embedding of JS `s.split(c)` for a one-character separator: never returns
`[]`, keeps empty chunks, `"".split` gives `[""]`, exactly as in JS. -/
def splitOnChar (c : Char) (s : String) : List String := splitOnCharGo c s.toList []

/-- Embedding of JS `filePath.split("/").pop()`: the last path component. -/
def fileNameOf (filePath : String) : Option String := (splitOnChar '/' filePath).getLast?

/-- Embedding of JS `array.map((x, index) => f(index, x))`, worker with the
running index. -/
def mapWithIndexGo {α β : Type} (f : Nat → α → β) : Nat → List α → List β
  | _, [] => []
  | i, x :: xs => f i x :: mapWithIndexGo f (i + 1) xs

/-- Embedding of JS `array.map((x, index) => f(index, x))`. -/
def mapWithIndex {α β : Type} (f : Nat → α → β) (l : List α) : List β :=
  mapWithIndexGo f 0 l

/-! ## Case converters

Modelled from the spec: the converter family of `helpers/strings.js` is not
among the available sources (only its import and call sites are). The spec
says (§4.1, glossary): identifiers are word-delimited by case boundaries,
underscores, or hyphens; camelCase has no separators, first letter lowercase,
subsequent word boundaries capitalized; kebab-case uses hyphens between
lowercase words; with the worked examples
`"My_Weird_File.json"` → `"my-weird-file.json"` and `"foo"` → `"Foo"`
(PascalCase). -/

/-- Modelled from the spec: split an identifier into words at underscores,
hyphens, and lower-to-upper case boundaries. `cur` is the current reversed
word. -/
def splitWordsGo : List Char → List Char → List String
  | [], cur => if cur.isEmpty then [] else [String.mk cur.reverse]
  | c :: rest, cur =>
      if c = '_' || c = '-' then
        (if cur.isEmpty then [] else [String.mk cur.reverse]) ++ splitWordsGo rest []
      else
        if c.isUpper && (match cur with | p :: _ => p.isLower | [] => false) then
          String.mk cur.reverse :: splitWordsGo rest [c]
        else
          splitWordsGo rest (c :: cur)

/-- Modelled from the spec: the word decomposition of an identifier. -/
def splitWords (s : String) : List String := splitWordsGo s.toList []

/-- Lowercase every character of a word. -/
def lowerAll (w : String) : String := String.mk (w.toList.map Char.toLower)

/-- Uppercase every character of a word. -/
def upperAll (w : String) : String := String.mk (w.toList.map Char.toUpper)

/-- Uppercase the first character of a word, lowercase the rest. -/
def capitalize (w : String) : String :=
  match w.toList with
  | [] => ""
  | c :: cs => String.mk (c.toUpper :: cs.map Char.toLower)

/-- Join words with a separator (JS `array.join(sep)`). -/
def joinSep (sep : String) : List String → String
  | [] => ""
  | [w] => w
  | w :: ws => w ++ sep ++ joinSep sep ws

/-- Modelled from the spec: `toCamelCase` of `helpers/strings.js`. -/
def toCamelCase (s : String) : String :=
  match splitWords s with
  | [] => ""
  | w :: ws => lowerAll w ++ String.join (ws.map capitalize)

/-- Modelled from the spec: `toPascalCase` of `helpers/strings.js`. -/
def toPascalCase (s : String) : String := String.join ((splitWords s).map capitalize)

/-- Modelled from the spec: `toKebabCase` of `helpers/strings.js`. -/
def toKebabCase (s : String) : String := joinSep "-" ((splitWords s).map lowerAll)

/-- Modelled from the spec: `toSnakeCase` of `helpers/strings.js`. -/
def toSnakeCase (s : String) : String := joinSep "_" ((splitWords s).map lowerAll)

/-- Modelled from the spec: `toUpperSnakeCase` of `helpers/strings.js`. -/
def toUpperSnakeCase (s : String) : String := joinSep "_" ((splitWords s).map upperAll)

/-- Modelled from the spec: `toPascalSnakeCase` of `helpers/strings.js`. -/
def toPascalSnakeCase (s : String) : String := joinSep "_" ((splitWords s).map capitalize)

/-! ## Constants (`scripts/locales-key-format/constants.js`) -/

/-- `LOCALES_DIR` from constants.js. -/
def LOCALES_DIR : String := "."

/-- `ignoreList` from constants.js. -/
def ignoreList : List String :=
  ["README.md", ".gitignore", ".git", ".github", ".gitmodules", "LICENSE",
   "node_modules", "package.json", "modifier-type.json", "modifier.json",
   "modifier-select-ui-handler.json"]

/-- `i18nextKeyExtensions` from constants.js: i18next context/plural suffixes
that stay snake_case. -/
def i18nextKeyExtensions : List String :=
  ["_male", "_female", "_ordinal", "_one", "_two", "_other", "_few"]

/-- The target formats recognized by `getCorrectFormat`'s switch. -/
inductive Format where
  | camelCase
  | kebabCase
  | pascalCase
  | snakeCase
  | upperSnakeCase
  | pascalSnakeCase
deriving DecidableEq

/-- `keyFormat` from constants.js. -/
def keyFormat : Format := Format.camelCase

/-- `fileNameFormat` from constants.js. -/
def fileNameFormat : Format := Format.kebabCase

/-- `fileExtension` from constants.js. -/
def fileExtension : String := ".json"

/-! ## Data model -/

/-- A finding of `analyzeKey` (`{ incorrectKey, correctedKey, line }`). -/
structure KeyFinding where
  incorrectKey : String
  correctedKey : String
  line : Nat
deriving DecidableEq

/-- A finding of `checkForIncorrectFileName`
(`{ incorrectFileName, correctedFileName }`). -/
structure FileNameFinding where
  incorrectFileName : String
  correctedFileName : String
deriving DecidableEq

/-- The resolved run configuration built by `parseArgs`. -/
structure Options where
  checkKeys : Bool
  checkFileNames : Bool
  verbose : Bool
  languages : List String

/-- A directory entry: a file (with the ordered key list of its parsed JSON
content) or a directory with children. -/
inductive Entry where
  | file (name : String) (keys : List String)
  | dir (name : String) (children : List Entry)

/-- The name of an entry (what `readdirSync` lists). -/
def entryName : Entry → String
  | .file n _ => n
  | .dir n _ => n

/-- A file-system snapshot: whether the locales root exists, its entries, and
the content-read function (`existsSync` + `readFileSync` + `JSON.parse`,
returning the ordered key list; `none` models a file that does not exist at
read time, which may disagree with the tree). -/
structure FileSystem where
  rootExists : Bool
  root : List Entry
  read : String → Option (List String)

/-! ## `getFiles` and `getLanguageCodes` (get-files.js) -/

mutual

/-- One loop iteration of `getFiles` for a single directory entry: a
directory is recursed into, and — independently — any entry whose path ends
in `fileExtension` and whose name is not ignore-listed is collected. The two
conditions are not mutually exclusive. -/
def getFilesE (dir : String) : Entry → List String
  | .file n _ =>
      if strEndsWith (dir ++ "/" ++ n) fileExtension && !(ignoreList.contains n) then
        [dir ++ "/" ++ n]
      else []
  | .dir n children =>
      getFilesL (dir ++ "/" ++ n) children ++
        (if strEndsWith (dir ++ "/" ++ n) fileExtension && !(ignoreList.contains n) then
          [dir ++ "/" ++ n]
        else [])
termination_by structural e => e

/-- `getFiles(dir)` from get-files.js, over the listed entries of `dir`. -/
def getFilesL (dir : String) : List Entry → List String
  | [] => []
  | e :: es => getFilesE dir e ++ getFilesL dir es
termination_by structural es => es

end

/-- `getLanguageCodes` from get-files.js: on a missing locales root it sets
`process.exitCode = 1` (and reports) and yields no codes; otherwise it lists
the root's entries, skipping ignore-listed names. Takes and returns the
current exit code. -/
def getLanguageCodes (fs : FileSystem) (exitCode : Nat) : List String × Nat :=
  if fs.rootExists then
    ((fs.root.map entryName).filter (fun folder => !(ignoreList.contains folder)), exitCode)
  else
    ([], 1)

/-! ## Key format check (check-locales.js) -/

/-- `getCorrectFormat(key, format)` from check-locales.js (the unknown-format
default branch calls `process.exit(1)` and is unreachable for the `Format`
enumeration). -/
def getCorrectFormat (key : String) : Format → String
  | .camelCase => toCamelCase key
  | .kebabCase => toKebabCase key
  | .pascalCase => toPascalCase key
  | .snakeCase => toSnakeCase key
  | .upperSnakeCase => toUpperSnakeCase key
  | .pascalSnakeCase => toPascalSnakeCase key

/-- `processExtensions(key)` from check-locales.js: split on `"_"`, start
from the first segment verbatim, then append each later segment either with
its underscore (recognized i18next suffix) or PascalCased. -/
def processExtensions (key : String) : String :=
  match splitOnChar '_' key with
  | [] => ""
  | first :: parts =>
      parts.foldl
        (fun ret part =>
          if i18nextKeyExtensions.contains ("_" ++ part) then ret ++ "_" ++ part
          else ret ++ toPascalCase part)
        first

/-- The corrected form `analyzeKey` computes for a key:
`getCorrectFormat(key, keyFormat)`, overridden by `processExtensions(key)`
when the key contains an underscore. -/
def correctKeyFor (key : String) : String :=
  if containsChar '_' key then processExtensions key
  else getCorrectFormat key keyFormat

/-- `analyzeKey(key, index, options)` from check-locales.js (the `options`
argument only controls logging and is dropped): `line = index + 2`, and a
finding is returned exactly when the corrected form differs from the key. -/
def analyzeKey (key : String) (index : Nat) : Option KeyFinding :=
  if correctKeyFor key = key then none
  else some { incorrectKey := key, correctedKey := correctKeyFor key, line := index + 2 }

/-- `checkForIncorrectKeys(filePath, options)` from check-locales.js, over
the read function `fsRead` (`readFileContent` + `JSON.parse`): `none` when
the file does not exist at read time; otherwise the (possibly empty)
`incorrectKeys` object, as an association list. -/
def checkForIncorrectKeys (fsRead : String → Option (List String)) (filePath : String) :
    Option (List (String × List KeyFinding)) :=
  match fsRead filePath with
  | none => none
  | some keys =>
      let entries := (mapWithIndex (fun index key => analyzeKey key index) keys).filterMap id
      some (if entries.isEmpty then [] else [(filePath, entries)])

/-- The per-language file loop of `checkLocaleKeys`: merge each file's
(non-null) `incorrectKeys` object into the accumulator. -/
def checkLocaleKeysFiles (fsRead : String → Option (List String)) (files : List String) :
    List (String × List KeyFinding) :=
  files.foldl
    (fun acc filePath =>
      match checkForIncorrectKeys fsRead filePath with
      | none => acc
      | some fileIncorrectKeys => acc ++ fileIncorrectKeys)
    []

/-- Look up the children of the language directory `code` under the locales
root (what `getFiles(LOCALES_DIR + "/" + code)` will walk). -/
def findLang (root : List Entry) (code : String) : List Entry :=
  match root.find? (fun e => entryName e == code) with
  | some (Entry.dir _ children) => children
  | _ => []

/-- `checkLocaleKeys(options)` from check-locales.js: for every selected
language, walk its files and accumulate the incorrect keys. -/
def checkLocaleKeys (fs : FileSystem) (options : Options) : List (String × List KeyFinding) :=
  options.languages.foldl
    (fun acc languageCode =>
      acc ++ checkLocaleKeysFiles fs.read
        (getFilesL (LOCALES_DIR ++ "/" ++ languageCode) (findLang fs.root languageCode)))
    []

/-- `Object.values(result).reduce((sum, val) => sum + val.length, 0)`: the
total number of key findings in a result object. -/
def countKeyFindings (result : List (String × List KeyFinding)) : Nat :=
  result.foldl (fun sum pr => sum + pr.2.length) 0

/-! ## File name format check (check-locales.js) -/

/-- `checkForIncorrectFileName(filePath, options)` from check-locales.js:
take the last path component and compare it with its
`getCorrectFormat(fileName, fileNameFormat)` form. -/
def checkForIncorrectFileName (filePath : String) : Option FileNameFinding :=
  match fileNameOf filePath with
  | none => none
  | some fileName =>
      if getCorrectFormat fileName fileNameFormat = fileName then none
      else some { incorrectFileName := fileName,
                  correctedFileName := getCorrectFormat fileName fileNameFormat }

/-- `checkLocaleFileNames(options)` from check-locales.js. -/
def checkLocaleFileNames (fs : FileSystem) (options : Options) : List FileNameFinding :=
  options.languages.foldl
    (fun acc languageCode =>
      acc ++ (getFilesL (LOCALES_DIR ++ "/" ++ languageCode)
        (findLang fs.root languageCode)).filterMap checkForIncorrectFileName)
    []

/-! ## Result display and exit code (scripts/locales-key-format/main.js) -/

/-- The exit-code effect of `displayKeyResults` in
scripts/locales-key-format/main.js: `core.setFailed` (exit code 1) when the
result object has MORE THAN ONE file entry (`Object.keys(result).length > 1`),
and otherwise `process.exitCode = 0`, regardless of the previous exit code. -/
def displayKeyResults (result : List (String × List KeyFinding)) : Nat :=
  if result.length > 1 then 1 else 0

/-- The exit-code effect of `displayFileNameResults` in
scripts/locales-key-format/main.js: `core.setFailed` on any finding,
otherwise `process.exitCode = 0`. -/
def displayFileNameResults (result : List FileNameFinding) : Nat :=
  if result.length > 0 then 1 else 0

/-- The final exit code of `main()` of scripts/locales-key-format/main.js for
a run with the given flags and no positional language arguments (so
`options.languages` defaults to `getLanguageCodes()`). `parseArgs` may set
exit code 1 via `getLanguageCodes`; no flags exits 0. When `checkFileNames`
is set, the statement before `checkLocaleFileNames` immediately calls the
`undefined` return value of a `console.log` as a function, so the run throws
a TypeError there — after the key check but before either display function —
and the unhandled rejection terminates the process with exit code 1.
Otherwise `displayKeyResults` overwrites the exit code. -/
def runKeyFormat (fs : FileSystem) (checkKeys checkFileNames verbose : Bool) : Nat :=
  let parsed := getLanguageCodes fs 0
  let options : Options :=
    { checkKeys := checkKeys, checkFileNames := checkFileNames,
      verbose := verbose, languages := parsed.1 }
  if !checkKeys && !checkFileNames then 0
  else
    let keyOutput := if checkKeys then checkLocaleKeys fs options else []
    if checkFileNames then 1
    else if checkKeys then displayKeyResults keyOutput
    else parsed.2

/-- The key-correction computation exactly as the spec words it: split on
`"_"`, take the first segment verbatim, then append each subsequent segment
either with its underscore when `"_" + segment` is in the fixed allow-list
`{_male, _female, _ordinal, _one, _two, _other, _few}`, or else append its
PascalCase form. -/
def processExtensionsSpec (key : String) : String :=
  match splitOnChar '_' key with
  | [] => ""
  | first :: segments =>
      segments.foldl
        (fun acc segment =>
          if ["_male", "_female", "_ordinal", "_one", "_two", "_other",
              "_few"].contains ("_" ++ segment) then acc ++ "_" ++ segment
          else acc ++ toPascalCase segment)
        first

mutual

/-- Well-formedness of a file-system entry: no entry name contains a slash
(true of anything `readdirSync` can list). -/
def namesOkE : Entry → Bool
  | .file n _ => !(n.toList.contains '/')
  | .dir n children => !(n.toList.contains '/') && namesOkL children
termination_by structural e => e

/-- Well-formedness of a list of entries. -/
def namesOkL : List Entry → Bool
  | [] => true
  | e :: es => namesOkE e && namesOkL es
termination_by structural es => es

end

/-! ## Concrete inputs used by the claim theorems -/

/-- A snapshot whose single language `en` has one file `move.json` with one
incorrectly cased key. -/
def fsOneBadKey : FileSystem :=
  { rootExists := true,
    root := [Entry.dir "en" [Entry.file "move.json" ["Bad_key"]]],
    read := fun p => if p = "./en/move.json" then some ["Bad_key"] else none }

/-- A snapshot whose locales root does not exist. -/
def fsMissingRoot : FileSystem :=
  { rootExists := false, root := [], read := fun _ => none }

/-- A read function under which no file exists. -/
def readAbsent : String → Option (List String) := fun _ => none

/-- A read function with a single two-key file `f.json`. -/
def readTwoKeys : String → Option (List String) :=
  fun p => if p = "f.json" then some ["ok", "Bad_key"] else none

/-! ## Claim theorems -/

/-- Claim C1. The claim says any finding implies a non-zero process outcome,
and in particular that the key-format checker fails on at least one key
finding. The key-format checker's `displayKeyResults`
(scripts/locales-key-format/main.js) instead tests
`Object.keys(result).length > 1`: on a snapshot whose key check yields
exactly one finding, in one file, the whole run ends with exit code 0. -/
theorem c1_key_checker_ignores_single_file_findings :
    countKeyFindings (checkLocaleKeys fsOneBadKey
      { checkKeys := true, checkFileNames := false, verbose := false, languages := ["en"] }) = 1 ∧
    displayKeyResults (checkLocaleKeys fsOneBadKey
      { checkKeys := true, checkFileNames := false, verbose := false, languages := ["en"] }) = 0 ∧
    runKeyFormat fsOneBadKey true false false = 0 := by
  refine ⟨by decide, by decide, by decide⟩

/-- Claim C2, counterexample. Analyzing `"Ace_Trainer_male"` does not produce
the corrected key `"aceTrainer_male"` claimed by the spec: `processExtensions`
keeps the first underscore segment verbatim, so the corrected key is
`"AceTrainer_male"`. -/
theorem c2_counterexample :
    (analyzeKey "Ace_Trainer_male" 0).map KeyFinding.correctedKey = some "AceTrainer_male" ∧
    "AceTrainer_male" ≠ "aceTrainer_male" := by
  refine ⟨by decide, by decide⟩

/-- Claim C2 as amended. Analyzing the key `"Ace_Trainer_male"` produces the
corrected key `"AceTrainer_male"`: the first segment is kept verbatim
(it is not camelCased), the unrecognized segment `Trainer` is PascalCased and
appended, and the recognized suffix `_male` is kept verbatim. -/
theorem c2_ace_trainer_male :
    analyzeKey "Ace_Trainer_male" 0 =
      some { incorrectKey := "Ace_Trainer_male", correctedKey := "AceTrainer_male", line := 2 } := by
  decide

/-- Claim C3. For every key containing an underscore, the corrected form the
analyzer computes is exactly the spec's description (`processExtensionsSpec`);
and, as the spec's example, `"trainer_foo"` is corrected to `"trainerFoo"`. -/
theorem c3_underscore_keys_follow_spec :
    (∀ key, containsChar '_' key = true → correctKeyFor key = processExtensionsSpec key) ∧
    correctKeyFor "trainer_foo" = "trainerFoo" := by
  constructor
  · intro key h
    simp only [correctKeyFor, h, if_true]
    rfl
  · decide

/-- Witness for C3 at the concrete key `"a_b"`. -/
theorem c3_witness :
    containsChar '_' "a_b" = true ∧ correctKeyFor "a_b" = processExtensionsSpec "a_b" :=
  ⟨by decide, c3_underscore_keys_follow_spec.1 "a_b" (by decide)⟩

/-- Claim C4. The claim says a missing locales root is reported and the run
ends with a failure status. `getLanguageCodes` does report it and set
`process.exitCode = 1`, but on a keys-only (`-k`) run of
scripts/locales-key-format/main.js `displayKeyResults` then unconditionally
resets the exit code to 0 in its no-findings branch, so that run terminates
with exit code 0. (A run with `-f` does end non-zero, but only because the
statement before `checkLocaleFileNames` throws a TypeError — the third
conjunct — not through the reported failure status the claim describes.) -/
theorem c4_missing_root_exit_code_reset :
    (getLanguageCodes fsMissingRoot 0).2 = 1 ∧
    runKeyFormat fsMissingRoot true false false = 0 ∧
    runKeyFormat fsMissingRoot true true false = 1 := by
  refine ⟨by decide, by decide, by decide⟩

/-- Claim C8. The key check and the file-name check are pure functions of the
file-system snapshot and the options: two runs on the same unmodified
snapshot yield identical finding sets and counts. -/
theorem c8_checks_deterministic (fs : FileSystem) (options : Options) :
    checkLocaleKeys fs options = checkLocaleKeys fs options ∧
    countKeyFindings (checkLocaleKeys fs options) =
      countKeyFindings (checkLocaleKeys fs options) ∧
    checkLocaleFileNames fs options = checkLocaleFileNames fs options :=
  ⟨rfl, rfl, rfl⟩

/-- Claim C10. In `getFiles` the directory-recursion branch and the
file-collection branch are independent `if`s: a directory entry whose own
path ends in `.json` and whose name is not ignore-listed is both recursed
into and itself appended, so `getFiles` can return directory paths. -/
theorem c10_json_directories_also_collected (dir n : String) (children : List Entry)
    (h1 : strEndsWith (dir ++ "/" ++ n) fileExtension = true)
    (h2 : ignoreList.contains n = false) :
    getFilesE dir (Entry.dir n children) =
      getFilesL (dir ++ "/" ++ n) children ++ [dir ++ "/" ++ n] := by
  simp [getFilesE, h1, h2]
  simpa using h2

/-- Witness for C10: the directory `foo.json` is recursed into (collecting
`bar.json`) and is itself returned as a path. -/
theorem c10_witness :
    getFilesE "./en" (Entry.dir "foo.json" [Entry.file "bar.json" []]) =
      getFilesL "./en/foo.json" [Entry.file "bar.json" []] ++ ["./en/foo.json"] :=
  c10_json_directories_also_collected "./en" "foo.json" [Entry.file "bar.json" []]
    (by decide) (by decide)

/-- Claim C6. Every emitted key finding has `correctedKey` different from the
observed key, every file-name finding has `correctedFileName` different from
the observed file name, and an already-correct key or file name (one equal to
its corrected form) yields no finding. -/
theorem c6_findings_differ_and_correct_is_stable :
    (∀ key index f, analyzeKey key index = some f → f.correctedKey ≠ f.incorrectKey) ∧
    (∀ filePath f, checkForIncorrectFileName filePath = some f →
      f.correctedFileName ≠ f.incorrectFileName) ∧
    (∀ key index, correctKeyFor key = key → analyzeKey key index = none) ∧
    (∀ filePath fileName, fileNameOf filePath = some fileName →
      getCorrectFormat fileName fileNameFormat = fileName →
      checkForIncorrectFileName filePath = none) := by
  refine ⟨?_, ?_, ?_, ?_⟩
  · intro key index f h
    unfold analyzeKey at h
    split at h
    · simp at h
    next h1 =>
      cases h
      exact h1
  · intro filePath f h
    unfold checkForIncorrectFileName at h
    cases hm : fileNameOf filePath with
    | none => rw [hm] at h; simp at h
    | some fileName =>
      rw [hm] at h
      dsimp only at h
      by_cases hc : getCorrectFormat fileName fileNameFormat = fileName
      · rw [if_pos hc] at h; simp at h
      · rw [if_neg hc] at h
        simp only [Option.some.injEq] at h
        subst h
        exact hc
  · intro key index h
    simp [analyzeKey, h]
  · intro filePath fileName h1 h2
    simp [checkForIncorrectFileName, h1, h2]

/-- Witness for C6: the already-camelCase key `trainerMale` and the already
kebab-case file `ability.json` produce no finding. -/
theorem c6_witness :
    analyzeKey "trainerMale" 0 = none ∧
    checkForIncorrectFileName "./en/ability.json" = none :=
  ⟨c6_findings_differ_and_correct_is_stable.2.2.1 "trainerMale" 0 (by decide),
   c6_findings_differ_and_correct_is_stable.2.2.2 "./en/ability.json" "ability.json"
     (by decide) (by decide)⟩

/-- Claim C9. A file that does not exist when its content is read is skipped
silently: `checkForIncorrectKeys` returns `none`, and the per-language scan
over a file list containing it yields exactly the result of scanning the
remaining files. -/
theorem c9_missing_file_silently_skipped (fsRead : String → Option (List String))
    (filePath : String) (h : fsRead filePath = none) :
    checkForIncorrectKeys fsRead filePath = none ∧
    ∀ before after : List String,
      checkLocaleKeysFiles fsRead (before ++ filePath :: after) =
        checkLocaleKeysFiles fsRead (before ++ after) := by
  have hnone : checkForIncorrectKeys fsRead filePath = none := by
    simp [checkForIncorrectKeys, h]
  refine ⟨hnone, ?_⟩
  intro before after
  simp [checkLocaleKeysFiles, List.foldl_append, hnone]

/-- Witness for C9 at a read function with no files at all. -/
theorem c9_witness :
    checkForIncorrectKeys readAbsent "gone.json" = none ∧
    checkLocaleKeysFiles readAbsent ["gone.json"] = checkLocaleKeysFiles readAbsent [] :=
  ⟨(c9_missing_file_silently_skipped readAbsent "gone.json" rfl).1,
   (c9_missing_file_silently_skipped readAbsent "gone.json" rfl).2 [] []⟩

/-- Membership in the indexed map: every element comes from some list
position `j`, built with index `s + j`. -/
theorem mem_mapWithIndexGo {α β : Type} (f : Nat → α → β) (s : Nat) (l : List α) (b : β)
    (h : b ∈ mapWithIndexGo f s l) : ∃ j a, l.get? j = some a ∧ f (s + j) a = b := by
  induction l generalizing s with
  | nil => simp [mapWithIndexGo] at h
  | cons x xs ih =>
    simp only [mapWithIndexGo, List.mem_cons] at h
    cases h with
    | inl h => exact ⟨0, x, rfl, h.symm⟩
    | inr h =>
      obtain ⟨j, a, h1, h2⟩ := ih (s + 1) h
      refine ⟨j + 1, a, h1, ?_⟩
      have hs : s + (j + 1) = s + 1 + j := by omega
      rw [hs]
      exact h2

/-- What a successful `analyzeKey` records: the observed key and the line
`index + 2`. -/
theorem analyzeKey_fields {key : String} {index : Nat} {f : KeyFinding}
    (h : analyzeKey key index = some f) : f.incorrectKey = key ∧ f.line = index + 2 := by
  unfold analyzeKey at h
  split at h
  · simp at h
  · cases h
    exact ⟨rfl, rfl⟩

/-- Claim C7. Every key finding reported by `checkForIncorrectKeys` carries
the line number `i + 2` where `i` is the zero-based position of its key in
the file's serialized key order: the 1-based position counting the header
line. -/
theorem c7_finding_line_is_index_plus_two (fsRead : String → Option (List String))
    (filePath : String) (keys : List String) (result : List (String × List KeyFinding))
    (h1 : fsRead filePath = some keys)
    (h2 : checkForIncorrectKeys fsRead filePath = some result) :
    ∀ pr ∈ result, ∀ f ∈ pr.2,
      ∃ i, keys.get? i = some f.incorrectKey ∧ f.line = i + 2 := by
  intro pr hpr f hf
  unfold checkForIncorrectKeys at h2
  rw [h1] at h2
  dsimp only at h2
  simp only [Option.some.injEq] at h2
  subst h2
  split at hpr
  · simp at hpr
  · rw [List.mem_singleton] at hpr
    subst hpr
    simp only [List.mem_filterMap, id_eq] at hf
    obtain ⟨o, ho, hid⟩ := hf
    subst hid
    obtain ⟨j, a, hj, hfa⟩ := mem_mapWithIndexGo _ 0 keys _ ho
    simp only [Nat.zero_add] at hfa
    obtain ⟨hkey, hline⟩ := analyzeKey_fields hfa
    exact ⟨j, by rw [hkey]; exact hj, hline⟩

/-- Witness for C7: in a file with keys `["ok", "Bad_key"]`, the finding for
`Bad_key` (index 1) is reported at line 3. -/
theorem c7_witness :
    ∃ i, (["ok", "Bad_key"] : List String).get? i = some "Bad_key" ∧ 3 = i + 2 :=
  c7_finding_line_is_index_plus_two readTwoKeys "f.json" ["ok", "Bad_key"]
    [("f.json", [{ incorrectKey := "Bad_key", correctedKey := "BadKey", line := 3 }])]
    (by decide) (by decide)
    ("f.json", [{ incorrectKey := "Bad_key", correctedKey := "BadKey", line := 3 }]) (by decide)
    { incorrectKey := "Bad_key", correctedKey := "BadKey", line := 3 } (by decide)

/-- `splitOnCharGo` always produces at least one chunk. -/
theorem splitOnCharGo_ne_nil (c : Char) (l : List Char) :
    ∀ cur : List Char, splitOnCharGo c l cur ≠ [] := by
  induction l with
  | nil => intro cur; simp [splitOnCharGo]
  | cons x xs ih =>
    intro cur
    simp only [splitOnCharGo]
    split
    · simp
    · exact ih (x :: cur)

/-- `getLast?` skips a head in front of a nonempty tail. -/
theorem getLast?_cons_of_ne_nil {α : Type} (a : α) {l : List α} (h : l ≠ []) :
    (a :: l).getLast? = l.getLast? := by
  cases l with
  | nil => exact absurd rfl h
  | cons b t => exact List.getLast?_cons_cons

/-- The last chunk of a split is determined by the text after the last
separator occurrence already known to be in the list. -/
theorem splitOnCharGo_getLast?_append (c : Char) (l2 : List Char) :
    ∀ (l1 cur : List Char),
      (splitOnCharGo c (l1 ++ c :: l2) cur).getLast? = (splitOnCharGo c l2 []).getLast? := by
  intro l1
  induction l1 with
  | nil =>
    intro cur
    simp only [List.nil_append, splitOnCharGo, if_pos rfl]
    exact getLast?_cons_of_ne_nil _ (splitOnCharGo_ne_nil c l2 [])
  | cons x xs ih =>
    intro cur
    simp only [List.cons_append, splitOnCharGo]
    split
    · rw [getLast?_cons_of_ne_nil _ (splitOnCharGo_ne_nil c _ _)]
      exact ih []
    · exact ih (x :: cur)

/-- Splitting a separator-free chunk yields that single chunk. -/
theorem splitOnCharGo_no_sep (c : Char) (l : List Char) :
    ∀ cur : List Char, c ∉ l → splitOnCharGo c l cur = [String.mk (cur.reverse ++ l)] := by
  induction l with
  | nil => intro cur _; simp [splitOnCharGo]
  | cons x xs ih =>
    intro cur h
    have hx : ¬(x = c) := fun he => h (List.mem_cons.mpr (Or.inl he.symm))
    simp only [splitOnCharGo, if_neg hx]
    rw [ih (x :: cur) (fun hm => h (List.mem_cons.mpr (Or.inr hm)))]
    simp [List.append_assoc]

/-- A contained-character test that is false means non-membership. -/
theorem not_mem_of_contains_eq_false {c : Char} {l : List Char}
    (h : l.contains c = false) : c ∉ l := by
  intro hm
  simp at h
  exact h hm

/-- The last path component of `d ++ "/" ++ n` is `n` whenever `n` itself
contains no slash. -/
theorem fileNameOf_append (d n : String) (h : n.toList.contains '/' = false) :
    fileNameOf (d ++ "/" ++ n) = some n := by
  unfold fileNameOf splitOnChar
  have hdata : (d ++ "/" ++ n).toList = d.toList ++ '/' :: n.toList := by
    simp [String.toList, String.data_append]
  rw [hdata, splitOnCharGo_getLast?_append '/' n.toList d.toList [],
      splitOnCharGo_no_sep '/' n.toList [] (not_mem_of_contains_eq_false h)]
  rfl

mutual

/-- Every path collected from one entry has a base name that is not on the
ignore list (exact-case comparison). -/
theorem collected_names_not_ignored_entry (dir : String) (e : Entry)
    (h : namesOkE e = true) :
    ∀ p ∈ getFilesE dir e, ∃ n, fileNameOf p = some n ∧ ignoreList.contains n = false := by
  cases e with
  | file n keys =>
    intro p hp
    simp only [getFilesE] at hp
    split at hp
    next hcond =>
      rw [List.mem_singleton] at hp
      subst hp
      rw [Bool.and_eq_true, Bool.not_eq_true'] at hcond
      have hslash : n.toList.contains '/' = false := by
        simpa [namesOkE, Bool.not_eq_true'] using h
      exact ⟨n, fileNameOf_append dir n hslash, hcond.2⟩
    next => simp at hp
  | dir n children =>
    intro p hp
    simp only [getFilesE] at hp
    rw [List.mem_append] at hp
    rw [namesOkE, Bool.and_eq_true] at h
    cases hp with
    | inl hp => exact collected_names_not_ignored_list (dir ++ "/" ++ n) children h.2 p hp
    | inr hp =>
      split at hp
      next hcond =>
        rw [List.mem_singleton] at hp
        subst hp
        rw [Bool.and_eq_true, Bool.not_eq_true'] at hcond
        have hslash : n.toList.contains '/' = false := by
          simpa [Bool.not_eq_true'] using h.1
        exact ⟨n, fileNameOf_append dir n hslash, hcond.2⟩
      next => simp at hp
termination_by structural e

/-- Every path collected from a list of entries has a base name that is not
on the ignore list (exact-case comparison). -/
theorem collected_names_not_ignored_list (dir : String) (es : List Entry)
    (h : namesOkL es = true) :
    ∀ p ∈ getFilesL dir es, ∃ n, fileNameOf p = some n ∧ ignoreList.contains n = false := by
  cases es with
  | nil => intro p hp; simp [getFilesL] at hp
  | cons e es =>
    intro p hp
    rw [namesOkL, Bool.and_eq_true] at h
    simp only [getFilesL] at hp
    rw [List.mem_append] at hp
    cases hp with
    | inl hp => exact collected_names_not_ignored_entry dir e h.1 p hp
    | inr hp => exact collected_names_not_ignored_list dir es h.2 p hp
termination_by structural es

end

/-- Claim C5, counterexample. Findings can be produced from ignore-listed
entries: the ignore-listed directory `node_modules` is still recursed into
(only the file-collection branch of `getFiles` consults the ignore list), so
a file inside it is collected and produces a file-name finding; and the
ignore comparison is case-sensitive, so the differently-cased
`Modifier.json` (the ignore list holds `modifier.json`) is collected and
produces a finding. -/
theorem c5_counterexample :
    ignoreList.contains "node_modules" = true ∧
    getFilesL "./en" [Entry.dir "node_modules" [Entry.file "a_b.json" ["k"]]] =
      ["./en/node_modules/a_b.json"] ∧
    checkForIncorrectFileName "./en/node_modules/a_b.json" =
      some { incorrectFileName := "a_b.json", correctedFileName := "a-b.json" } ∧
    ignoreList.contains "modifier.json" = true ∧
    getFilesL "./en" [Entry.file "Modifier.json" ["k"]] = ["./en/Modifier.json"] ∧
    checkForIncorrectFileName "./en/Modifier.json" =
      some { incorrectFileName := "Modifier.json", correctedFileName := "modifier.json" } := by
  refine ⟨by decide, by decide, by decide, by decide, by decide, by decide⟩

/-- Claim C5 as amended. A file or directory whose name is exactly (same
casing) on the ignore list is never itself collected by `getFiles`, so no
finding is ever produced for such an entry itself: every collected path has a
base name that is not on the ignore list. (Ignore-listed directories are
still recursed into, and the comparison is case-sensitive, as the
counterexample shows.) -/
theorem c5_ignored_names_never_yield_own_findings (dir : String) (es : List Entry)
    (h : namesOkL es = true) :
    ∀ p ∈ getFilesL dir es, ∃ n, fileNameOf p = some n ∧ ignoreList.contains n = false :=
  collected_names_not_ignored_list dir es h

/-- Witness for C5 on a one-file tree. -/
theorem c5_witness :
    ∃ n, fileNameOf "./en/a.json" = some n ∧ ignoreList.contains n = false :=
  c5_ignored_names_never_yield_own_findings "./en" [Entry.file "a.json" []]
    (by decide) "./en/a.json" (by decide)
